import Mathlib

/-!
Verification of the Mandelbrot renderer (`src/main.rs`).

The source computes over `f64`; we embed its arithmetic over `ℚ`, which models
the exact real arithmetic the specification's formulas are written in.  Machine
integers (`usize`, `u32`, `u8`) are embedded as `ℕ`; the `as u8` narrowing cast
in `render` is modelled by `% 256`.  Fallible operations (Rust panics: division
by zero, `chunks_mut(0)`, the `assert!` in `render`, a failing worker inside
`crossbeam::scope`) are modelled as `Option`, with `none` for a panic.
-/

namespace Mandelbrot

/-- The type `num::Complex<f64>`, with `f64` embedded as `ℚ`. -/
structure Complex where
  re : ℚ
  im : ℚ
deriving DecidableEq

instance : Add Complex :=
  ⟨fun a b => ⟨a.re + b.re, a.im + b.im⟩⟩

/-- Multiplication of `num::Complex`. -/
instance : Mul Complex :=
  ⟨fun a b => ⟨a.re * b.re - a.im * b.im, a.re * b.im + a.im * b.re⟩⟩

@[simp] theorem add_re (a b : Complex) : (a + b).re = a.re + b.re := rfl

@[simp] theorem add_im (a b : Complex) : (a + b).im = a.im + b.im := rfl

@[simp] theorem mul_re (a b : Complex) : (a * b).re = a.re * b.re - a.im * b.im := rfl

@[simp] theorem mul_im (a b : Complex) : (a * b).im = a.re * b.im + a.im * b.re := rfl

/-- Method `Complex::norm_sqr`: `re*re + im*im`. -/
def norm_sqr (z : Complex) : ℚ := z.re * z.re + z.im * z.im

/-- The loop body of `escape_time` (`src/main.rs:115-125`): `accumulator` is the
current value of `z`, `i` the current loop index, `fuel` the remaining
iterations (`limit - i`). -/
def escape_go (target accumulator : Complex) (i fuel : ℕ) : Option ℕ :=
  match fuel with
  | 0 => none
  | fuel' + 1 =>
    let acc' := accumulator * accumulator + target
    if 4 < norm_sqr acc' then some i else escape_go target acc' (i + 1) fuel'

/-- Function `escape_time` (`src/main.rs:115-125`): iterate `z ← z² + target` from
`z = 0`, at most `limit` times, returning the 0-based index of the first
update after which `norm_sqr z > 4`. -/
def escape_time (target : Complex) (limit : ℕ) : Option ℕ :=
  escape_go target ⟨0, 0⟩ 0 limit

/-- The orbit of `0` under `z ← z² + c`: `orbit c n` is the accumulator of
`escape_time` after `n` updates. -/
def orbit (c : Complex) : ℕ → Complex
  | 0 => ⟨0, 0⟩
  | n + 1 => orbit c n * orbit c n + c

/-- Function `pixel_to_point` (`src/main.rs:134-149`).  `bounds = (width, height)` and
`pixel = (column, row)` are embedded as `ℕ × ℕ`.  (In Rust, `/ 0.0` on `f64`
yields an infinity; every claim restricts to positive bounds, where the two
arithmetics agree.) -/
def pixel_to_point (bounds pixel : ℕ × ℕ) (upper_left lower_right : Complex) : Complex :=
  let width := lower_right.re - upper_left.re
  let height := upper_left.im - lower_right.im
  ⟨upper_left.re + (pixel.1 : ℚ) * width / (bounds.1 : ℚ),
   upper_left.im - (pixel.2 : ℚ) * height / (bounds.2 : ℚ)⟩

/-- The grayscale byte `render` writes for one escape-time result
(`src/main.rs:182-185`): `0` for `None`, `255 - count as u8` for
`Some(count)`; the `u32 → u8` cast is `% 256`. -/
def color_of (e : Option ℕ) : ℕ :=
  match e with
  | none => 0
  | some count => 255 - count % 256

/-- Function `render` (`src/main.rs:170-188`).  `len` is the length of the incoming
`pixels` region; the `assert!` at line 176 (a panic on violation) is the
`none` branch.  On success the returned list is the buffer contents: the
nested loops write every index `row * width + column` of the region exactly
once, in row-major order. -/
def render (len : ℕ) (bounds : ℕ × ℕ) (upper_left lower_right : Complex) : Option (List ℕ) :=
  if len = bounds.1 * bounds.2 then
    some ((List.range bounds.2).flatMap fun row =>
      (List.range bounds.1).map fun column =>
        color_of (escape_time (pixel_to_point bounds (column, row) upper_left lower_right) 255))
  else none

/-- Definition `rows_per_band` (`src/main.rs:27`): `bounds.1 / threads + 1` with truncating
`usize` division.  (`threads = 0` panics in Rust; `renderFull` guards it.) -/
def rows_per_band (height threads : ℕ) : ℕ := height / threads + 1

/-- Rust `slice::chunks_mut n` (`src/main.rs:30`) for `n ≥ 1`: consecutive chunks of
`n` elements, the last possibly shorter, none empty.  The `0, _ :: _` case is
unreachable in `renderFull`, which models the `chunks_mut(0)` panic as `none`
before calling this. -/
def chunksMut : ℕ → List α → List (List α)
  | _, [] => []
  | 0, _ :: _ => []
  | n + 1, x :: xs => ((x :: xs).take (n + 1)) :: chunksMut (n + 1) ((x :: xs).drop (n + 1))
termination_by _ l => l.length
decreasing_by simp; omega

/-- The spawn loop of `main` (`src/main.rs:32-44`): band `i` starts at row
`top = rows_per_band * i`, has `band.len() / width` rows, and is rendered with
its corners mapped through the full bounds/viewport.  `crossbeam::scope` joins
all workers and the chunks are consecutive sub-slices of one buffer, so the
final buffer is the concatenation of the rendered bands; a panicking worker
fails the whole scope (`none`). -/
def runBands (w h : ℕ) (upper_left lower_right : Complex) (rpb : ℕ) :
    ℕ → List (List ℕ) → Option (List ℕ)
  | _, [] => some []
  | i, band :: rest => do
    let bandH := band.length / w
    let buf ← render band.length (w, bandH)
      (pixel_to_point (w, h) (0, rpb * i) upper_left lower_right)
      (pixel_to_point (w, h) (w, rpb * i + bandH) upper_left lower_right)
    let tail ← runBands w h upper_left lower_right rpb (i + 1) rest
    some (buf ++ tail)

/-- The full render of `main` (`src/main.rs:24-47`): allocate a zero buffer of
`width * height` bytes, chunk it into bands of `rows_per_band * width` bytes,
render each band, join.  `threads = 0` is the `bounds.1 / threads` panic
(division by zero at line 27); `width = 0` is the `chunks_mut(0)` panic
(and the `band.len() / bounds.0` division by zero). -/
def renderFull (bounds : ℕ × ℕ) (upper_left lower_right : Complex) (threads : ℕ) :
    Option (List ℕ) :=
  if threads = 0 then none
  else if bounds.1 = 0 then none
  else
    let rpb := rows_per_band bounds.2 threads
    let pixels : List ℕ := List.replicate (bounds.1 * bounds.2) 0
    runBands bounds.1 bounds.2 upper_left lower_right rpb 0 (chunksMut (rpb * bounds.1) pixels)

/-- The bytes of rows `[top, top + m)` of the full `w × h` image, row-major:
each pixel is rendered through the full bounds/viewport.  `render` on band
`i` produces exactly `bandBytes w h ul lr (rows_per_band * i) bandH`. -/
def bandBytes (w h : ℕ) (upper_left lower_right : Complex) (top m : ℕ) : List ℕ :=
  (List.range m).flatMap fun r =>
    (List.range w).map fun c =>
      color_of (escape_time (pixel_to_point (w, h) (c, top + r) upper_left lower_right) 255)

/-! ## Helper lemmas -/

theorem Complex.ext2 {a b : Complex} (h1 : a.re = b.re) (h2 : a.im = b.im) : a = b := by
  cases a; cases b; simp_all

/-- A band's corner viewport, computed from the full image, makes the band's
local pixel `(c, r)` map to the same point as the full image's pixel
`(c, top + r)`. -/
theorem band_point (w h top bh : ℕ) (ul lr : Complex)
    (hw : 0 < w) (hh : 0 < h) (hbh : 0 < bh) (c r : ℕ) :
    pixel_to_point (w, bh) (c, r)
      (pixel_to_point (w, h) (0, top) ul lr)
      (pixel_to_point (w, h) (w, top + bh) ul lr)
    = pixel_to_point (w, h) (c, top + r) ul lr := by
  have hw' : (w : ℚ) ≠ 0 := Nat.cast_ne_zero.mpr hw.ne'
  have hh' : (h : ℚ) ≠ 0 := Nat.cast_ne_zero.mpr hh.ne'
  have hbh' : (bh : ℚ) ≠ 0 := Nat.cast_ne_zero.mpr hbh.ne'
  apply Complex.ext2
  · simp only [pixel_to_point]; push_cast; field_simp; try ring
  · simp only [pixel_to_point]; push_cast; field_simp; try ring

theorem chunksMut_nil (n : ℕ) : chunksMut n ([] : List α) = [] := by
  simp [chunksMut]

theorem chunksMut_cons (n : ℕ) (x : α) (xs : List α) :
    chunksMut (n + 1) (x :: xs)
      = ((x :: xs).take (n + 1)) :: chunksMut (n + 1) ((x :: xs).drop (n + 1)) := by
  rw [chunksMut]

theorem chunksMut_pos (n : ℕ) (hn : 0 < n) (l : List α) (hl : l ≠ []) :
    chunksMut n l = l.take n :: chunksMut n (l.drop n) := by
  match n, l with
  | n + 1, x :: xs => rw [chunksMut_cons]
  | 0, _ => omega
  | _, [] => simp at hl

/-- Chunk `i` of `chunks_mut n` is the slice of `n` elements starting at
offset `n * i` (clipped at the end), and exists exactly when `n * i` is a
valid offset. -/
theorem chunksMut_getElem (n : ℕ) (hn : 0 < n) (l : List α) (i : ℕ) :
    (chunksMut n l)[i]? =
      if n * i < l.length then some ((l.drop (n * i)).take n) else none := by
  suffices H : ∀ (len : ℕ) (l : List α), l.length ≤ len → ∀ i : ℕ,
      (chunksMut n l)[i]? =
        if n * i < l.length then some ((l.drop (n * i)).take n) else none from
    H l.length l le_rfl i
  intro len
  induction len with
  | zero =>
    intro l hl i
    rw [List.length_eq_zero.mp (Nat.le_zero.mp hl)]
    simp [chunksMut_nil]
  | succ len IH =>
    intro l hl i
    rcases eq_or_ne l [] with rfl | hne
    · simp [chunksMut_nil]
    · rw [chunksMut_pos n hn l hne]
      have hlpos : 0 < l.length := List.length_pos.mpr hne
      cases i with
      | zero =>
        rw [List.getElem?_cons_zero, Nat.mul_zero, if_pos hlpos, List.drop_zero]
      | succ i =>
        rw [List.getElem?_cons_succ, IH (l.drop n) (by simp; omega) i]
        simp only [List.length_drop, List.drop_drop]
        rw [Nat.mul_succ, Nat.add_comm (n * i) n]
        split_ifs with h1 h2 h2
        · rfl
        · omega
        · omega
        · rfl

/-- The chunks of `chunks_mut` concatenate back to the original buffer. -/
theorem chunksMut_flatten (n : ℕ) (hn : 0 < n) (l : List α) :
    (chunksMut n l).flatten = l := by
  suffices H : ∀ (len : ℕ) (l : List α), l.length ≤ len → (chunksMut n l).flatten = l from
    H l.length l le_rfl
  intro len
  induction len with
  | zero =>
    intro l hl
    rw [List.length_eq_zero.mp (Nat.le_zero.mp hl)]
    simp [chunksMut_nil]
  | succ len IH =>
    intro l hl
    rcases eq_or_ne l [] with rfl | hne
    · simp [chunksMut_nil]
    · have hlpos : 0 < l.length := List.length_pos.mpr hne
      rw [chunksMut_pos n hn l hne, List.flatten_cons, IH (l.drop n) (by simp; omega)]
      exact List.take_append_drop n l

/-- `chunks_mut n` produces `⌈length / n⌉` chunks. -/
theorem chunksMut_length (n : ℕ) (hn : 0 < n) (l : List α) :
    (chunksMut n l).length = (l.length + n - 1) / n := by
  suffices H : ∀ (len : ℕ) (l : List α), l.length ≤ len →
      (chunksMut n l).length = (l.length + n - 1) / n from H l.length l le_rfl
  intro len
  induction len with
  | zero =>
    intro l hl
    rw [List.length_eq_zero.mp (Nat.le_zero.mp hl), chunksMut_nil]
    simp only [List.length_nil, List.length_nil]
    exact (Nat.div_eq_of_lt (by omega)).symm
  | succ len IH =>
    intro l hl
    rcases eq_or_ne l [] with rfl | hne
    · rw [chunksMut_nil]
      simp only [List.length_nil]
      exact (Nat.div_eq_of_lt (by omega)).symm
    · have hlpos : 0 < l.length := List.length_pos.mpr hne
      rw [chunksMut_pos n hn l hne, List.length_cons, IH (l.drop n) (by simp; omega)]
      simp only [List.length_drop]
      rcases le_or_lt n l.length with hc | hc
      · have e1 : l.length - n + n - 1 = l.length - 1 := by omega
        have e2 : l.length + n - 1 = (l.length - 1) + n := by omega
        rw [e1, e2, Nat.add_div_right _ hn]
      · have e1 : l.length - n + n - 1 = n - 1 := by omega
        rw [e1, Nat.div_eq_of_lt (by omega)]
        exact (Nat.div_eq_of_lt_le (by omega) (by omega)).symm

/-- Chunking a buffer of `m * w` zero bytes into chunks of `n * w` bytes peels
off a first chunk of `min n m` rows. -/
theorem chunksMut_replicate_step (w n m : ℕ) (hw : 0 < w) (hn : 0 < n) (hm : 0 < m) :
    chunksMut (n * w) (List.replicate (m * w) (0 : ℕ))
      = List.replicate (min n m * w) 0 :: chunksMut (n * w) (List.replicate ((m - n) * w) 0) := by
  have hne : List.replicate (m * w) (0 : ℕ) ≠ [] := by
    simp only [ne_eq, List.replicate_eq_nil_iff]
    exact (Nat.mul_pos hm hw).ne'
  rw [chunksMut_pos (n * w) (Nat.mul_pos hn hw) _ hne, List.take_replicate,
    List.drop_replicate, Nat.mul_min_mul_right, Nat.sub_mul]

/-- The rows of `bandBytes` split additively: the first `a` rows, then `b`
rows starting `a` lower. -/
theorem bandBytes_append (w h : ℕ) (ul lr : Complex) (top a b : ℕ) :
    bandBytes w h ul lr top (a + b)
      = bandBytes w h ul lr top a ++ bandBytes w h ul lr (top + a) b := by
  simp only [bandBytes, List.range_add, List.flatMap_append, List.flatMap_map, Nat.add_assoc]

theorem bandBytes_zero (w h : ℕ) (ul lr : Complex) (top : ℕ) :
    bandBytes w h ul lr top 0 = [] := by
  simp [bandBytes]

/-- Rendering a band of `bh` rows whose corner viewport was derived from the
full image (as `main` does at `src/main.rs:36-39`) yields exactly rows
`[top, top + bh)` of the full image. -/
theorem render_band (w h top bh : ℕ) (ul lr : Complex)
    (hw : 0 < w) (hh : 0 < h) (hbh : 0 < bh) :
    render (bh * w) (w, bh)
      (pixel_to_point (w, h) (0, top) ul lr)
      (pixel_to_point (w, h) (w, top + bh) ul lr)
    = some (bandBytes w h ul lr top bh) := by
  rw [render, if_pos (Nat.mul_comm bh w)]
  simp only [bandBytes, band_point w h top bh ul lr hw hh hbh]

/-- Running the spawn loop over the chunks of an `m * w`-byte zero buffer,
with the band index starting at `i`, renders rows `[rpb * i, rpb * i + m)`
of the full image. -/
theorem runBands_chunks (w h rpb : ℕ) (ul lr : Complex)
    (hw : 0 < w) (hh : 0 < h) (hrpb : 0 < rpb) :
    ∀ m i : ℕ,
      runBands w h ul lr rpb i (chunksMut (rpb * w) (List.replicate (m * w) (0 : ℕ)))
        = some (bandBytes w h ul lr (rpb * i) m) := by
  intro m
  induction m using Nat.strong_induction_on with
  | _ m IH =>
    intro i
    rcases Nat.eq_zero_or_pos m with rfl | hm
    · rw [Nat.zero_mul]
      simp [chunksMut_nil, runBands, bandBytes_zero]
    · rw [chunksMut_replicate_step w rpb m hw hrpb hm]
      have hmin : 0 < min rpb m := lt_min hrpb hm
      simp only [runBands, List.length_replicate, Nat.mul_div_left _ hw,
        render_band w h (rpb * i) (min rpb m) ul lr hw hh hmin,
        IH (m - rpb) (by omega), Option.bind_eq_bind, Option.some_bind]
      congr 1
      rcases le_or_lt m rpb with hc | hc
      · rw [min_eq_right hc, Nat.sub_eq_zero_of_le hc, bandBytes_zero, List.append_nil]
      · rw [min_eq_left hc.le,
          show bandBytes w h ul lr (rpb * i) m
              = bandBytes w h ul lr (rpb * i) (rpb + (m - rpb)) from by
            rw [Nat.add_sub_cancel' hc.le],
          bandBytes_append, ← Nat.mul_succ]

/-- The whole parallel render of `main` equals one sequential `render` of the
full buffer, for any worker count `t ≥ 1`. -/
theorem renderFull_eq_render (w h t : ℕ) (ul lr : Complex)
    (hw : 0 < w) (hh : 0 < h) (ht : 0 < t) :
    renderFull (w, h) ul lr t = render (w * h) (w, h) ul lr := by
  rw [renderFull, if_neg ht.ne', if_neg hw.ne']
  have hrpb : 0 < rows_per_band h t := Nat.succ_pos _
  rw [show w * h = h * w from Nat.mul_comm w h,
    runBands_chunks w h (rows_per_band h t) ul lr hw hh hrpb h 0,
    render, if_pos (Nat.mul_comm h w)]
  congr 1
  rw [Nat.mul_zero]
  simp [bandBytes]

theorem orbit_succ (c : Complex) (n : ℕ) :
    orbit c (n + 1) = orbit c n * orbit c n + c := rfl

/-- Characterization of the loop of `escape_time`, started at index `i` with
accumulator `orbit c i`: it returns `some j` exactly when `j` is the first
index in `[i, i + fuel)` whose update escapes. -/
theorem escape_go_some_iff (c : Complex) :
    ∀ (fuel i j : ℕ),
      escape_go c (orbit c i) i fuel = some j ↔
        i ≤ j ∧ j < i + fuel ∧ 4 < norm_sqr (orbit c (j + 1)) ∧
          ∀ k, i ≤ k → k < j → norm_sqr (orbit c (k + 1)) ≤ 4 := by
  intro fuel
  induction fuel with
  | zero =>
    intro i j
    simp only [escape_go]
    constructor
    · intro hsome; cases hsome
    · rintro ⟨h1, h2, -, -⟩; omega
  | succ fuel IH =>
    intro i j
    rw [show escape_go c (orbit c i) i (fuel + 1)
        = if 4 < norm_sqr (orbit c (i + 1)) then some i
          else escape_go c (orbit c (i + 1)) (i + 1) fuel from rfl]
    by_cases h4 : 4 < norm_sqr (orbit c (i + 1))
    · rw [if_pos h4]
      constructor
      · intro hsome
        have hji : j = i := by cases hsome; rfl
        subst hji
        exact ⟨le_refl j, by omega, h4, fun k hk1 hk2 => by omega⟩
      · rintro ⟨h1, h2, h3, h5⟩
        have hji : i = j := by
          by_contra hne
          exact absurd (h5 i (le_refl i) (by omega)) (not_le.mpr h4)
        rw [hji]
    · rw [if_neg h4, IH (i + 1) j]
      have h4' : norm_sqr (orbit c (i + 1)) ≤ 4 := not_lt.mp h4
      constructor
      · rintro ⟨h1, h2, h3, h5⟩
        refine ⟨by omega, by omega, h3, fun k hk1 hk2 => ?_⟩
        rcases Nat.eq_or_lt_of_le hk1 with rfl | hk
        · exact h4'
        · exact h5 k hk hk2
      · rintro ⟨h1, h2, h3, h5⟩
        have hij : i ≠ j := by
          rintro rfl
          exact absurd h3 (not_lt.mpr h4')
        exact ⟨by omega, by omega, h3, fun k hk1 hk2 => h5 k (by omega) hk2⟩

/-- Characterization of the loop of `escape_time` returning `none`: no index
in `[i, i + fuel)` escapes. -/
theorem escape_go_none_iff (c : Complex) :
    ∀ (fuel i : ℕ),
      escape_go c (orbit c i) i fuel = none ↔
        ∀ k, i ≤ k → k < i + fuel → norm_sqr (orbit c (k + 1)) ≤ 4 := by
  intro fuel
  induction fuel with
  | zero =>
    intro i
    simp only [escape_go]
    exact ⟨fun _ k hk1 hk2 => by omega, fun _ => trivial⟩
  | succ fuel IH =>
    intro i
    rw [show escape_go c (orbit c i) i (fuel + 1)
        = if 4 < norm_sqr (orbit c (i + 1)) then some i
          else escape_go c (orbit c (i + 1)) (i + 1) fuel from rfl]
    by_cases h4 : 4 < norm_sqr (orbit c (i + 1))
    · rw [if_pos h4]
      constructor
      · intro hsome; cases hsome
      · intro hall
        exact absurd (hall i (le_refl i) (by omega)) (not_le.mpr h4)
    · rw [if_neg h4, IH (i + 1)]
      have h4' : norm_sqr (orbit c (i + 1)) ≤ 4 := not_lt.mp h4
      constructor
      · intro hall k hk1 hk2
        rcases Nat.eq_or_lt_of_le hk1 with rfl | hk
        · exact h4'
        · exact hall k hk (by omega)
      · intro hall k hk1 hk2
        exact hall k (by omega) (by omega)

/-- A row-major buffer built from `h` rows of `w` pixels has `h * w` bytes. -/
theorem rowMajor_length (w h : ℕ) (f : ℕ → ℕ → ℕ) :
    ((List.range h).flatMap fun r => (List.range w).map (f r)).length = h * w := by
  induction h with
  | zero => simp
  | succ h IH =>
    rw [List.range_succ, List.flatMap_append, List.length_append, IH]
    simp [Nat.succ_mul]

/-- Byte `row * w + col` of a row-major buffer of `h` rows of `w` pixels is
the pixel the row-`row`, column-`col` loop iteration wrote. -/
theorem rowMajor_getElem (w h : ℕ) (f : ℕ → ℕ → ℕ) :
    ∀ row col : ℕ, row < h → col < w →
      ((List.range h).flatMap fun r => (List.range w).map (f r))[row * w + col]? =
        some (f row col) := by
  induction h with
  | zero => intro row col hrow _; omega
  | succ h IH =>
    intro row col hrow hcol
    rw [List.range_succ, List.flatMap_append]
    have hlen : ((List.range h).flatMap fun r => (List.range w).map (f r)).length = h * w :=
      rowMajor_length w h f
    rcases Nat.lt_or_ge row h with hc | hc
    · have hidx : row * w + col < h * w := by
        have h1 : (row + 1) * w ≤ h * w := Nat.mul_le_mul_right w hc
        have h2 : (row + 1) * w = row * w + w := Nat.succ_mul row w
        omega
      rw [List.getElem?_append, if_pos (by omega), IH row col hc hcol]
    · have hrw : row = h := by omega
      subst hrw
      rw [List.getElem?_append_right (by omega), hlen]
      simp [hcol, List.getElem?_range]

/-- Shape of band `i` of a `w * h`-byte buffer chunked into bands of
`rpb * w` bytes: it starts at row `rpb * i < h`, is the contiguous byte slice
starting at byte `rpb * i * w`, and holds `min rpb (h - rpb * i)` full rows. -/
theorem chunk_shape (w h rpb : ℕ) (l : List ℕ) (hw : 0 < w) (hrpb : 0 < rpb)
    (hl : l.length = w * h) (i : ℕ) (b : List ℕ)
    (hb : (chunksMut (rpb * w) l)[i]? = some b) :
    rpb * i < h ∧ b = (l.drop (rpb * i * w)).take b.length
      ∧ b.length = min rpb (h - rpb * i) * w := by
  have hn : 0 < rpb * w := Nat.mul_pos hrpb hw
  rw [chunksMut_getElem (rpb * w) hn l i] at hb
  by_cases hc : rpb * w * i < l.length
  · rw [if_pos hc] at hb
    have hbv : b = (l.drop (rpb * w * i)).take (rpb * w) := (Option.some_inj.mp hb).symm
    have hih : rpb * i < h := by
      by_contra hge
      have h1 : h * w ≤ rpb * i * w := Nat.mul_le_mul_right w (by omega)
      have h2 : rpb * w * i = rpb * i * w := Nat.mul_right_comm rpb w i
      have h3 : l.length = h * w := by rw [hl, Nat.mul_comm]
      omega
    have hdl : (l.drop (rpb * w * i)).length = (h - rpb * i) * w := by
      rw [List.length_drop, hl, Nat.mul_comm w h, Nat.mul_right_comm rpb w i,
        ← Nat.sub_mul]
    have hblen : b.length = min rpb (h - rpb * i) * w := by
      rw [hbv, List.length_take, hdl, ← Nat.mul_min_mul_right]
    refine ⟨hih, ?_, hblen⟩
    have htake : ∀ (x : List ℕ) (n : ℕ), x.take n = x.take (min n x.length) := by
      intro x n
      rcases le_or_lt n x.length with hcc | hcc
      · rw [min_eq_left hcc]
      · rw [min_eq_right hcc.le, List.take_of_length_le hcc.le, List.take_length]
    rw [Nat.mul_right_comm rpb i w, hbv, List.length_take,
      ← htake (l.drop (rpb * w * i)) (rpb * w)]
  · rw [if_neg hc] at hb
    cases hb

/-- Chunking the `w * h`-byte zero buffer into bands of `rpb * w` bytes
produces `⌈h / rpb⌉` bands. -/
theorem chunksMut_count (w h rpb : ℕ) (hw : 0 < w) (hrpb : 0 < rpb) :
    (chunksMut (rpb * w) (List.replicate (w * h) (0 : ℕ))).length
      = (h + rpb - 1) / rpb := by
  have hn : 0 < rpb * w := Nat.mul_pos hrpb hw
  rw [chunksMut_length (rpb * w) hn, List.length_replicate]
  have hd := Nat.div_add_mod (h + rpb - 1) rpb
  have hr : (h + rpb - 1) % rpb < rpb := Nat.mod_lt _ hrpb
  set q := (h + rpb - 1) / rpb with hq
  have b1 : h ≤ rpb * q := by omega
  have b2 : rpb * q ≤ h + rpb - 1 := by omega
  have e3 : w * h = h * w := Nat.mul_comm w h
  apply Nat.div_eq_of_lt_le
  · have le1 : rpb * q * w ≤ (h + rpb - 1) * w := Nat.mul_le_mul_right w b2
    have e0 : (h + rpb - 1) * w = h * w + rpb * w - w := by
      rw [Nat.sub_mul, Nat.add_mul, Nat.one_mul]
    have e1 : q * (rpb * w) = rpb * q * w := by ring
    omega
  · have le2 : h * w ≤ rpb * q * w := Nat.mul_le_mul_right w b1
    have e2 : (q + 1) * (rpb * w) = rpb * q * w + rpb * w := by ring
    omega

/-! ## Claim theorems -/

/-- C1: for every raster bounds with positive width and height, every viewport
`(ul, lr)`, and any two worker counts `k1 ≠ k2` (both `≥ 1`), the full render
produces pixel-for-pixel identical buffers, and the parallel multi-band render
equals a sequential single-band render of the whole image. -/
theorem renderFull_deterministic (w h k1 k2 : ℕ) (ul lr : Complex)
    (hw : 0 < w) (hh : 0 < h) (hk1 : 1 ≤ k1) (hk2 : 1 ≤ k2) (hne : k1 ≠ k2) :
    renderFull (w, h) ul lr k1 = renderFull (w, h) ul lr k2
      ∧ renderFull (w, h) ul lr k1 = render (w * h) (w, h) ul lr := by
  have e1 := renderFull_eq_render w h k1 ul lr hw hh hk1
  have e2 := renderFull_eq_render w h k2 ul lr hw hh hk2
  exact ⟨e1.trans e2.symm, e1⟩

theorem renderFull_deterministic_witness :
    renderFull (1, 1) ⟨0, 0⟩ ⟨1, -1⟩ 1 = renderFull (1, 1) ⟨0, 0⟩ ⟨1, -1⟩ 2
      ∧ renderFull (1, 1) ⟨0, 0⟩ ⟨1, -1⟩ 1 = render (1 * 1) (1, 1) ⟨0, 0⟩ ⟨1, -1⟩ :=
  renderFull_deterministic 1 1 1 2 ⟨0, 0⟩ ⟨1, -1⟩ (by decide) (by decide) (by decide)
    (by decide) (by decide)

/-- C3: `pixel_to_point` is exactly the linear interpolation
`re = ul.re + column * (lr.re - ul.re) / width`,
`im = ul.im - row * (ul.im - lr.im) / height` (it is a pure function), and
`pixel_to_point (100,100) (25,75) (-1+1i) (1-1i) = -0.5 - 0.5i`. -/
theorem pixel_to_point_formula (w h c r : ℕ) (ul lr : Complex) (hw : 0 < w) (hh : 0 < h) :
    pixel_to_point (w, h) (c, r) ul lr
        = ⟨ul.re + (c : ℚ) * (lr.re - ul.re) / (w : ℚ),
           ul.im - (r : ℚ) * (ul.im - lr.im) / (h : ℚ)⟩
      ∧ pixel_to_point (100, 100) (25, 75) ⟨-1, 1⟩ ⟨1, -1⟩ = ⟨-(1 / 2 : ℚ), -(1 / 2 : ℚ)⟩ := by
  constructor
  · rfl
  · apply Complex.ext2
    · norm_num [pixel_to_point]
    · norm_num [pixel_to_point]

theorem pixel_to_point_formula_witness :
    (pixel_to_point (100, 100) (25, 75) (⟨-1, 1⟩ : Complex) ⟨1, -1⟩
        = ⟨(-1 : ℚ) + (25 : ℚ) * ((1 : ℚ) - (-1 : ℚ)) / (100 : ℚ),
           (1 : ℚ) - (75 : ℚ) * ((1 : ℚ) - (-1 : ℚ)) / (100 : ℚ)⟩)
      ∧ pixel_to_point (100, 100) (25, 75) ⟨-1, 1⟩ ⟨1, -1⟩ = ⟨-(1 / 2 : ℚ), -(1 / 2 : ℚ)⟩ :=
  pixel_to_point_formula 100 100 25 75 ⟨-1, 1⟩ ⟨1, -1⟩ (by decide) (by decide)

/-- C4: `escape_time c limit` starts from `z = 0`, applies `z ← z² + c` at most
`limit` times, and returns `some i` exactly when `i` is the 0-based index of
the first update after which the squared magnitude exceeds 4, and `none`
exactly when no update among the `limit` ever exceeds it. -/
theorem escape_time_spec (c : Complex) (limit : ℕ) (hlim : 1 ≤ limit) :
    (∀ i : ℕ, escape_time c limit = some i ↔
        i < limit ∧ 4 < norm_sqr (orbit c (i + 1)) ∧
          ∀ j, j < i → norm_sqr (orbit c (j + 1)) ≤ 4)
    ∧ (escape_time c limit = none ↔ ∀ j, j < limit → norm_sqr (orbit c (j + 1)) ≤ 4) := by
  constructor
  · intro i
    rw [escape_time, show (⟨0, 0⟩ : Complex) = orbit c 0 from rfl,
      escape_go_some_iff c limit 0 i]
    constructor
    · rintro ⟨-, h2, h3, h4⟩
      exact ⟨by omega, h3, fun j hj => h4 j (Nat.zero_le j) hj⟩
    · rintro ⟨h1, h2, h3⟩
      exact ⟨Nat.zero_le i, by omega, h2, fun k _ hk => h3 k hk⟩
  · rw [escape_time, show (⟨0, 0⟩ : Complex) = orbit c 0 from rfl,
      escape_go_none_iff c limit 0]
    constructor
    · intro hall j hj
      exact hall j (Nat.zero_le j) (by omega)
    · intro hall k _ hk
      exact hall k (by omega)

theorem escape_time_spec_witness :
    (∀ i : ℕ, escape_time ⟨3, 0⟩ 1 = some i ↔
        i < 1 ∧ 4 < norm_sqr (orbit ⟨3, 0⟩ (i + 1)) ∧
          ∀ j, j < i → norm_sqr (orbit ⟨3, 0⟩ (j + 1)) ≤ 4)
    ∧ (escape_time ⟨3, 0⟩ 1 = none ↔ ∀ j, j < 1 → norm_sqr (orbit ⟨3, 0⟩ (j + 1)) ≤ 4) :=
  escape_time_spec ⟨3, 0⟩ 1 (by decide)

/-- C5: when the region length matches `width * height`, `render` returns a
buffer of that length whose byte at index `row * width + column` is `0` when
`escape_time` (limit 255) reports no escape and `255 - count` when it reports
`some count` — and nothing else: the function only produces these bytes of its
own region. -/
theorem render_writes (len w h : ℕ) (ul lr : Complex) (hlen : len = w * h) :
    ∃ buf : List ℕ, render len (w, h) ul lr = some buf ∧ buf.length = len ∧
      ∀ row col : ℕ, row < h → col < w →
        buf[row * w + col]? =
          some (color_of (escape_time (pixel_to_point (w, h) (col, row) ul lr) 255)) := by
  refine ⟨(List.range h).flatMap fun row =>
      (List.range w).map fun column =>
        color_of (escape_time (pixel_to_point (w, h) (column, row) ul lr) 255),
    ?_, ?_, ?_⟩
  · rw [render, if_pos hlen]
  · rw [rowMajor_length w h, hlen, Nat.mul_comm]
  · intro row col hrow hcol
    exact rowMajor_getElem w h
      (fun r c0 => color_of (escape_time (pixel_to_point (w, h) (c0, r) ul lr) 255))
      row col hrow hcol

theorem render_writes_witness :
    ∃ buf : List ℕ, render 1 (1, 1) ⟨0, 0⟩ ⟨1, -1⟩ = some buf ∧ buf.length = 1 ∧
      ∀ row col : ℕ, row < 1 → col < 1 →
        buf[row * 1 + col]? =
          some (color_of (escape_time (pixel_to_point (1, 1) (col, row) ⟨0, 0⟩ ⟨1, -1⟩) 255)) :=
  render_writes 1 1 1 ⟨0, 0⟩ ⟨1, -1⟩ (by decide)

/-- C7: mapping the upper-left pixel corner `(0, 0)` yields `ul` exactly, and
mapping the lower-right pixel corner `(width, height)` yields `lr` exactly. -/
theorem pixel_to_point_corners (w h : ℕ) (ul lr : Complex) (hw : 0 < w) (hh : 0 < h) :
    pixel_to_point (w, h) (0, 0) ul lr = ul ∧ pixel_to_point (w, h) (w, h) ul lr = lr := by
  have hw' : (w : ℚ) ≠ 0 := Nat.cast_ne_zero.mpr hw.ne'
  have hh' : (h : ℚ) ≠ 0 := Nat.cast_ne_zero.mpr hh.ne'
  constructor
  · apply Complex.ext2
    · simp [pixel_to_point]
    · simp [pixel_to_point]
  · apply Complex.ext2
    · simp only [pixel_to_point]
      field_simp
    · simp only [pixel_to_point]
      field_simp

theorem pixel_to_point_corners_witness :
    pixel_to_point (100, 100) (0, 0) (⟨-1, 1⟩ : Complex) ⟨1, -1⟩ = ⟨-1, 1⟩
      ∧ pixel_to_point (100, 100) (100, 100) (⟨-1, 1⟩ : Complex) ⟨1, -1⟩ = ⟨1, -1⟩ :=
  pixel_to_point_corners 100 100 ⟨-1, 1⟩ ⟨1, -1⟩ (by decide) (by decide)

/-- C8: `render` requires `len = width * height`; any violation is immediately
fatal (`none`, the `assert!` panic) and never silently truncated or padded,
while a matching length always succeeds; and the scheduler's own calls never
fire the assertion (the whole render succeeds). -/
theorem render_length_contract (w h t : ℕ) (ul lr : Complex)
    (hw : 0 < w) (hh : 0 < h) (ht : 1 ≤ t) :
    (∀ len : ℕ, len ≠ w * h → ∀ ul2 lr2 : Complex, render len (w, h) ul2 lr2 = none)
    ∧ (∀ len : ℕ, len = w * h → ∀ ul2 lr2 : Complex, (render len (w, h) ul2 lr2).isSome)
    ∧ (renderFull (w, h) ul lr t).isSome := by
  refine ⟨fun len hlen ul2 lr2 => ?_, fun len hlen ul2 lr2 => ?_, ?_⟩
  · rw [render, if_neg hlen]
  · rw [render, if_pos hlen]
    rfl
  · rw [renderFull_eq_render w h t ul lr hw hh ht, render, if_pos rfl]
    rfl

theorem render_length_contract_witness :
    (∀ len : ℕ, len ≠ 1 * 1 → ∀ ul2 lr2 : Complex, render len (1, 1) ul2 lr2 = none)
    ∧ (∀ len : ℕ, len = 1 * 1 → ∀ ul2 lr2 : Complex, (render len (1, 1) ul2 lr2).isSome)
    ∧ (renderFull (1, 1) ⟨0, 0⟩ ⟨1, -1⟩ 1).isSome :=
  render_length_contract 1 1 1 ⟨0, 0⟩ ⟨1, -1⟩ (by decide) (by decide) (by decide)

/-- C9: a worker count strictly greater than the height does not crash the
full render: it completes successfully (no division by zero, no
out-of-range slicing). -/
theorem oversubscribed_workers_safe (w h t : ℕ) (ul lr : Complex)
    (hw : 0 < w) (hh : 0 < h) (ht : h < t) :
    (renderFull (w, h) ul lr t).isSome := by
  rw [renderFull_eq_render w h t ul lr hw hh (by omega), render, if_pos rfl]
  rfl

theorem oversubscribed_workers_safe_witness :
    (renderFull (1, 1) (⟨0, 0⟩ : Complex) ⟨1, -1⟩ 2).isSome :=
  oversubscribed_workers_safe 1 1 2 ⟨0, 0⟩ ⟨1, -1⟩ (by decide) (by decide) (by decide)

/-- C2: for any buffer of `width * height` bytes, the bands cut by the
partitioning step partition the row range `[0, h)` exactly: band `i` is the
contiguous byte slice starting at byte `startRow_i * w` (with
`startRow_i = rows_per_band * i`) holding `rowCount_i = b.length / w` whole
rows that stay inside the image; consecutive bands meet exactly
(`startRow_(i+1) = startRow_i + rowCount_i`), the last band ends exactly at
row `h`, and the concatenation of all bands is the whole buffer. -/
theorem bands_partition (w h t : ℕ) (l : List ℕ) (hw : 0 < w) (hh : 0 < h) (ht : 1 ≤ t)
    (hl : l.length = w * h) :
    (chunksMut (rows_per_band h t * w) l).flatten = l
    ∧ chunksMut (rows_per_band h t * w) l ≠ []
    ∧ ∀ i : ℕ, ∀ b : List ℕ, (chunksMut (rows_per_band h t * w) l)[i]? = some b →
        b = (l.drop (rows_per_band h t * i * w)).take b.length
        ∧ b.length = min (rows_per_band h t) (h - rows_per_band h t * i) * w
        ∧ rows_per_band h t * i + b.length / w ≤ h
        ∧ ((chunksMut (rows_per_band h t * w) l)[i + 1]?.isSome = true →
            rows_per_band h t * (i + 1) = rows_per_band h t * i + b.length / w)
        ∧ ((chunksMut (rows_per_band h t * w) l)[i + 1]? = none →
            rows_per_band h t * i + b.length / w = h) := by
  have hrpb : 0 < rows_per_band h t := Nat.succ_pos _
  have hn : 0 < rows_per_band h t * w := Nat.mul_pos hrpb hw
  have hlnil : l ≠ [] := by
    intro e
    rw [e] at hl
    have := Nat.mul_pos hw hh
    simp at hl
    omega
  refine ⟨chunksMut_flatten _ hn l, ?_, ?_⟩
  · rw [chunksMut_pos _ hn l hlnil]
    simp
  · intro i b hb
    obtain ⟨hih, hbeq, hblen⟩ := chunk_shape w h (rows_per_band h t) l hw hrpb hl i b hb
    have hdiv : b.length / w = min (rows_per_band h t) (h - rows_per_band h t * i) := by
      rw [hblen, Nat.mul_div_left _ hw]
    have hmin1 : min (rows_per_band h t) (h - rows_per_band h t * i) ≤ rows_per_band h t :=
      min_le_left _ _
    have hmin2 : min (rows_per_band h t) (h - rows_per_band h t * i)
        ≤ h - rows_per_band h t * i := min_le_right _ _
    have hmin3 : min (rows_per_band h t) (h - rows_per_band h t * i) = rows_per_band h t
        ∨ min (rows_per_band h t) (h - rows_per_band h t * i) = h - rows_per_band h t * i :=
      min_choice _ _
    have hms : rows_per_band h t * (i + 1) = rows_per_band h t * i + rows_per_band h t :=
      Nat.mul_succ _ i
    refine ⟨hbeq, hblen, by omega, ?_, ?_⟩
    · intro hnext
      rw [chunksMut_getElem _ hn l (i + 1)] at hnext
      have hcnd : rows_per_band h t * w * (i + 1) < l.length := by
        by_contra hcc
        rw [if_neg hcc] at hnext
        simp at hnext
      have hnext2 : rows_per_band h t * (i + 1) < h := by
        by_contra hge
        have h1 : h * w ≤ rows_per_band h t * (i + 1) * w := Nat.mul_le_mul_right w (by omega)
        have h2 : rows_per_band h t * w * (i + 1) = rows_per_band h t * (i + 1) * w :=
          Nat.mul_right_comm _ w (i + 1)
        have h3 : l.length = h * w := by rw [hl, Nat.mul_comm]
        omega
      rw [hdiv]
      omega
    · intro hnone
      rw [chunksMut_getElem _ hn l (i + 1)] at hnone
      have hcnd : ¬ rows_per_band h t * w * (i + 1) < l.length := by
        intro hcc
        rw [if_pos hcc] at hnone
        cases hnone
      have hge : h ≤ rows_per_band h t * (i + 1) := by
        by_contra hlt
        have h1 : (rows_per_band h t * (i + 1) + 1) * w ≤ h * w :=
          Nat.mul_le_mul_right w (by omega)
        have h1b : (rows_per_band h t * (i + 1) + 1) * w
            = rows_per_band h t * (i + 1) * w + w := Nat.succ_mul _ w
        have h2 : rows_per_band h t * w * (i + 1) = rows_per_band h t * (i + 1) * w :=
          Nat.mul_right_comm _ w (i + 1)
        have h3 : l.length = h * w := by rw [hl, Nat.mul_comm]
        omega
      rw [hdiv]
      omega

theorem bands_partition_witness :
    (chunksMut (rows_per_band 1 1 * 1) [7]).flatten = [7]
    ∧ chunksMut (rows_per_band 1 1 * 1) [7] ≠ []
    ∧ ∀ i : ℕ, ∀ b : List ℕ, (chunksMut (rows_per_band 1 1 * 1) [7])[i]? = some b →
        b = (([7] : List ℕ).drop (rows_per_band 1 1 * i * 1)).take b.length
        ∧ b.length = min (rows_per_band 1 1) (1 - rows_per_band 1 1 * i) * 1
        ∧ rows_per_band 1 1 * i + b.length / 1 ≤ 1
        ∧ ((chunksMut (rows_per_band 1 1 * 1) [7])[i + 1]?.isSome = true →
            rows_per_band 1 1 * (i + 1) = rows_per_band 1 1 * i + b.length / 1)
        ∧ ((chunksMut (rows_per_band 1 1 * 1) [7])[i + 1]? = none →
            rows_per_band 1 1 * i + b.length / 1 = 1) :=
  bands_partition 1 1 1 [7] (by decide) (by decide) (by decide) (by decide)

/-- C6, refuted as stated: at bounds `(1, 4)` and `workerCount = 4`,
`rows_per_band = 2` and the partition produces only 2 bands, not
`workerCount = 4` bands. -/
theorem band_count_counterexample :
    (chunksMut (rows_per_band 4 4 * 1) (List.replicate (1 * 4) (0 : ℕ))).length = 2
      ∧ (2 : ℕ) ≠ 4 := by
  constructor
  · rw [show rows_per_band 4 4 * 1 = 2 from rfl, show (1 * 4) = 4 from rfl,
      show List.replicate 4 (0 : ℕ) = [0, 0, 0, 0] from rfl,
      chunksMut_pos 2 (by omega) _ (by simp),
      show ([0, 0, 0, 0] : List ℕ).drop 2 = [0, 0] from rfl,
      chunksMut_pos 2 (by omega) _ (by simp),
      show ([0, 0] : List ℕ).drop 2 = ([] : List ℕ) from rfl, chunksMut_nil]
    rfl
  · decide

/-- C6 (amended): the partitioning step computes
`rowsPerBand = floor(height / workerCount) + 1` and produces exactly
`⌈height / rowsPerBand⌉` bands — never more than `workerCount`, but possibly
fewer — and every band has at least one row (a zero-height band never
occurs, since `chunks_mut` never yields an empty chunk). -/
theorem band_count_amended (w h t : ℕ) (hw : 0 < w) (hh : 0 < h) (ht : 1 ≤ t) :
    rows_per_band h t = h / t + 1
    ∧ (chunksMut (rows_per_band h t * w) (List.replicate (w * h) (0 : ℕ))).length
        = (h + rows_per_band h t - 1) / rows_per_band h t
    ∧ (chunksMut (rows_per_band h t * w) (List.replicate (w * h) (0 : ℕ))).length ≤ t
    ∧ ∀ b ∈ chunksMut (rows_per_band h t * w) (List.replicate (w * h) (0 : ℕ)),
        0 < b.length / w := by
  have hrpb : 0 < rows_per_band h t := Nat.succ_pos _
  refine ⟨rfl, chunksMut_count w h (rows_per_band h t) hw hrpb, ?_, ?_⟩
  · rw [chunksMut_count w h (rows_per_band h t) hw hrpb]
    have hd := Nat.div_add_mod h t
    have hm : h % t < t := Nat.mod_lt h (by omega)
    have htr : t * rows_per_band h t = t * (h / t) + t := by
      rw [rows_per_band, Nat.mul_add, Nat.mul_one]
    have hkey := (Nat.div_lt_iff_lt_mul hrpb).mpr
      (show h + rows_per_band h t - 1 < (t + 1) * rows_per_band h t from by
        have e : (t + 1) * rows_per_band h t = t * rows_per_band h t + rows_per_band h t :=
          Nat.succ_mul t _
        omega)
    omega
  · intro b hbmem
    obtain ⟨i, hbi⟩ := List.mem_iff_getElem?.mp hbmem
    obtain ⟨hih, -, hblen⟩ := chunk_shape w h (rows_per_band h t) _ hw hrpb (by simp) i b hbi
    have hmin : 0 < min (rows_per_band h t) (h - rows_per_band h t * i) :=
      lt_min hrpb (by omega)
    rw [hblen, Nat.mul_div_left _ hw]
    exact hmin

theorem band_count_amended_witness :
    rows_per_band 4 4 = 4 / 4 + 1
    ∧ (chunksMut (rows_per_band 4 4 * 1) (List.replicate (1 * 4) (0 : ℕ))).length
        = (4 + rows_per_band 4 4 - 1) / rows_per_band 4 4
    ∧ (chunksMut (rows_per_band 4 4 * 1) (List.replicate (1 * 4) (0 : ℕ))).length ≤ 4
    ∧ ∀ b ∈ chunksMut (rows_per_band 4 4 * 1) (List.replicate (1 * 4) (0 : ℕ)),
        0 < b.length / 1 :=
  band_count_amended 1 4 4 (by decide) (by decide) (by decide)

/-- C10: the full render is undefined for `workerCount = 0`: the
`rows_per_band` computation divides by the worker count with no guard, so the
render panics (here: `none`) before any pixel is rendered. -/
theorem renderFull_zero_workers (bounds : ℕ × ℕ) (ul lr : Complex) :
    renderFull bounds ul lr 0 = none := rfl

end Mandelbrot
